import Mathlib

/-!
# Verification of the ffmpego silence-removal pipeline

Shallow embedding, in Lean 4, of the algorithmic core of the `ffmpego`
repository: the silence-based segment computers (`DetectNonSilentSegments`,
two versions, and `audio.DetectSilence`), the parallel-extraction result
collection of `RemoveVideoSilence`, the re-encode decision of
`concatenateVideoSegmentsWithConfig`, and the reference-list construction of
`ConcatenateSegments`.

Conventions:
* Go `float64` time values are modelled as exact rationals (`ℚ`).  The code
  only compares, adds and subtracts times, so its control flow is captured
  faithfully; the floating-point literals `0.01` and `0.5` are modelled as
  `1/100` and `1/2`.
* Go slice indexing `xs[i]` is modelled by `List.getD xs i 0`.  The Go code
  would panic out of bounds; every theorem below either supplies the length
  hypotheses under which all accesses are in bounds, or concerns inputs for
  which this is automatic.
* External processes (ffmpeg / ffprobe) and the filesystem are modelled as
  parameters: silence intervals arrive already parsed, and file existence is
  an arbitrary predicate `String → Bool`.
-/

namespace Ffmpego

/-- The segment record `types.AudioSegment` / `audio.Segment` /
`video.Segment`: `{StartTime, EndTime, Duration float64}`. -/
structure AudioSegment where
  StartTime : ℚ
  EndTime : ℚ
  Duration : ℚ
deriving DecidableEq, Repr

/-- A segment entirely precedes another: no overlap (half-open intervals may
touch) and strictly smaller start time.  `Pairwise segBefore` is the
"pairwise non-overlapping with strictly increasing start times" invariant. -/
def segBefore (a b : AudioSegment) : Prop :=
  a.EndTime ≤ b.StartTime ∧ a.StartTime < b.StartTime

instance : DecidableRel segBefore := fun a b => by
  unfold segBefore; infer_instance

/-! ## Version 1 of `DetectNonSilentSegments` (audio.go, first copy)

The first copy of `DetectNonSilentSegments` walks the parsed
`silenceIntervals` (pairs `(start, end)`, where an unresolved end is the
sentinel `-1.0`) keeping a running `lastEnd`, clamps each silence start to
`lastEnd`, drops candidate segments of duration `≤ 0.01`, and on an invalid
end (`end < start`) emits the pending segment, sets `lastEnd` to the total
duration and breaks out of the loop. -/

/-- One conditional append of the non-silent segment `[a, b]`, guarded by
the `dur > 0.01` minimum-duration check used at every append site of the
first `DetectNonSilentSegments`. -/
def emitSeg (a b : ℚ) : List AudioSegment :=
  if b - a > 1/100 then [⟨a, b, b - a⟩] else []

/-- The `for _, interval := range silenceIntervals` loop of the first
`DetectNonSilentSegments` (audio.go lines 222–265).  Returns the collected
segments together with the final `lastEnd`.  The `end < start` branch
models the `break`: it stops consuming intervals and sets `lastEnd` to the
total duration `D`. -/
def detectLoopV1 (D : ℚ) : List (ℚ × ℚ) → ℚ → List AudioSegment × ℚ
  | [], lastEnd => ([], lastEnd)
  | (s, e) :: rest, lastEnd =>
    let start := if s < lastEnd then lastEnd else s
    if e < start then
      (emitSeg lastEnd start, D)
    else
      let next := detectLoopV1 D rest e
      (emitSeg lastEnd start ++ next.1, next.2)

/-- First `DetectNonSilentSegments` (audio.go, first copy): the segment
computation from parsed silence intervals and total duration, i.e. the loop
followed by the trailing `if lastEnd < totalDuration` append. -/
def detectNonSilentSegmentsV1 (intervals : List (ℚ × ℚ)) (D : ℚ) :
    List AudioSegment :=
  let r := detectLoopV1 D intervals 0
  r.1 ++ emitSeg r.2 D

/-! ## Version 2 of `DetectNonSilentSegments` (audio.go, second copy) and
`audio.DetectSilence`

The second copy works from the two parsed arrays `silenceStarts` and
`silenceEnds`.  It returns early with an empty list when either array is
empty, otherwise emits a leading segment when `S[0] > 0`, one candidate
`[E[i], S[i+1]]` per interior gap subject to the `0.5` short-segment
threshold, and a trailing segment `[E[last], D]` when `E[last] < D`. -/

/-- Leading segment of the second `DetectNonSilentSegments`:
`if silenceStarts[0] > 0` emit `[0, S[0]]`. -/
def leadingSegmentV2 (S : List ℚ) : List AudioSegment :=
  match S with
  | [] => []
  | s0 :: _ => if s0 > 0 then [⟨0, s0, s0⟩] else []

/-- Interior-gap loop of the second `DetectNonSilentSegments`
(`for i := 0; i < len(silenceStarts)-1; i++`): candidate `[E[i], S[i+1]]`,
skipped when its duration is `< 0.5`. -/
def middleSegmentsV2 (S E : List ℚ) : List AudioSegment :=
  (List.range (S.length - 1)).foldl
    (fun acc i =>
      let segmentStart := E.getD i 0
      let segmentEnd := S.getD (i + 1) 0
      if segmentEnd - segmentStart < 1/2 then acc
      else acc ++ [⟨segmentStart, segmentEnd, segmentEnd - segmentStart⟩]) []

/-- Trailing segment of the second `DetectNonSilentSegments`:
`if len(silenceEnds) > 0 && silenceEnds[last] < totalDuration` emit
`[E[last], D]`. -/
def trailingSegmentV2 (E : List ℚ) (D : ℚ) : List AudioSegment :=
  match E.getLast? with
  | none => []
  | some e => if e < D then [⟨e, D, D - e⟩] else []

/-- Second `DetectNonSilentSegments` (audio.go, second copy) and
`audio.DetectSilence` (part_006), which share this segment computation
verbatim: early empty return when either parsed array is empty, then
leading ++ interior gaps ++ trailing. -/
def detectNonSilentSegmentsV2 (S E : List ℚ) (D : ℚ) : List AudioSegment :=
  if S.isEmpty ∨ E.isEmpty then []
  else leadingSegmentV2 S ++ middleSegmentsV2 S E ++ trailingSegmentV2 E D

/-- Well-formed detector output for the second computer: every silence
start has a matching end (`len E = len S`) and the intervals are properly
interleaved: `S[i] ≤ E[i]` and `E[i] ≤ S[i+1]`. -/
def Interleaved (S E : List ℚ) : Prop :=
  S.length = E.length ∧
  (∀ i, i < S.length → S.getD i 0 ≤ E.getD i 0) ∧
  (∀ i, i < S.length - 1 → E.getD i 0 ≤ S.getD (i + 1) 0)

instance (S E : List ℚ) : Decidable (Interleaved S E) := by
  unfold Interleaved; infer_instance

/-! ## Parallel extraction result collection (`RemoveVideoSilence`, part_001)

The worker pool sends one `result{index, segmentPath, err}` per job on a
channel; completion order is arbitrary.  The collection loop stores each
successful result at `validSegments[r.index]` in a `make([]string, n)`
array, then filters out the empty slots in index order. -/

/-- The worker `result` record of `RemoveVideoSilence`:
`{index int, segmentPath string, err error}` (for the collection logic only
the presence of an error matters, so `err` is modelled as a `Bool`). -/
structure ExtractionResult where
  index : ℕ
  segmentPath : String
  err : Bool
deriving DecidableEq, Repr

/-- Result collection of `RemoveVideoSilence` (part_001 lines 229–248):
project the drained results into the fixed-size `validSegments` array slot
given by each result's index (errors are skipped, leaving the zero value
`""`), then keep the non-empty entries in index order. -/
def collectSegmentPaths (n : ℕ) (rs : List ExtractionResult) : List String :=
  let validSegments := rs.foldl
    (fun acc r => if r.err then acc else acc.set r.index r.segmentPath)
    (List.replicate n "")
  validSegments.filter (fun p => p ≠ "")

/-- One result per job index `0..n-1`, in job order: the multiset of
results every run of the worker pool produces, described by a success flag
`sOf` and an output path `pathOf` per index.  (A failed job's result
carries the zero-value path `""`.) -/
def canonicalResults (n : ℕ) (sOf : ℕ → Bool) (pathOf : ℕ → String) :
    List ExtractionResult :=
  (List.range n).map fun i =>
    if sOf i then ⟨i, pathOf i, false⟩ else ⟨i, "", true⟩

/-- Tail of `RemoveVideoSilence` after the pool is drained (part_001 lines
229–252): collect the ordered surviving paths and fail with
`all segments failed to process` when none survived, otherwise hand the
survivors to concatenation. -/
def removeVideoSilencePlan (n : ℕ) (rs : List ExtractionResult) :
    Except String (List String) :=
  let segmentPaths := collectSegmentPaths n rs
  if segmentPaths.isEmpty then .error "all segments failed to process"
  else .ok segmentPaths

/-- Worker count of `RemoveVideoSilence` (part_001 line 161):
`min(min(runtime.NumCPU(), 8), len(audioSegments))`. -/
def numWorkers (numCPU segmentCount : ℕ) : ℕ :=
  min (min numCPU 8) segmentCount

/-! ## Re-encode decision of `concatenateVideoSegmentsWithConfig`
(part_001 lines 519–633) -/

/-- The fields of `VideoInfo` consulted by the concat re-encode decision
(`Width`, `Height`, `FrameRate`, `VideoCodec`, `AudioCodec`,
`PixelFormat`; the remaining fields are never read there). -/
structure VideoInfo where
  Width : ℤ
  Height : ℤ
  FrameRate : ℚ
  VideoCodec : String
  AudioCodec : String
  PixelFormat : String
deriving DecidableEq, Repr

/-- The `VideoConfig` structure (utils.go).  Note it has no bitrate field:
an explicit bitrate override is not expressible for the video
concatenation path. -/
structure VideoConfig where
  TargetResolution : String
  FrameRate : ℚ
  Quality : ℤ
  VideoCodec : String
  AudioCodec : String
  PreserveCodecs : Bool
  CRF : ℤ
  Preset : String
  PixelFormat : String
deriving DecidableEq, Repr

/-- Go `strconv.Atoi`: optional single sign followed by decimal digits
(64-bit overflow is not modelled; the claims never exercise it). -/
def goAtoi (s : String) : Option ℤ :=
  if s.startsWith "+" then
    let r := s.drop 1
    if r.startsWith "+" ∨ r.startsWith "-" then none else r.toInt?
  else s.toInt?

/-- Sprintf of a width/height pair, `fmt.Sprintf("%dx%d", w, h)`. -/
def formatWxH (w h : ℤ) : String := s!"{w}x{h}"

/-- The helper `parseResolution` (part_001 lines 636–653): lower-case the
string, split on `x`, return the input unchanged unless there are exactly
two integer parts, otherwise re-render them as `WxH`. -/
def parseResolution (resolution : String) : String :=
  match resolution.toLower.splitOn "x" with
  | [p0, p1] =>
    match goAtoi p0.trim, goAtoi p1.trim with
    | some width, some height => formatWxH width height
    | _, _ => resolution
  | _ => resolution

/-- The `needsReencoding` expression of `concatenateVideoSegmentsWithConfig`
(part_001 lines 560–565), evaluated when a config is supplied. -/
def needsReencoding (config : VideoConfig) (videoInfo : VideoInfo) : Bool :=
  (config.TargetResolution != "" &&
    (parseResolution config.TargetResolution !=
      formatWxH videoInfo.Width videoInfo.Height)) ||
  (decide (config.FrameRate > 0) && config.FrameRate != videoInfo.FrameRate) ||
  (config.PixelFormat != "" && config.PixelFormat != videoInfo.PixelFormat) ||
  (config.VideoCodec != "" && config.VideoCodec != videoInfo.VideoCodec) ||
  (config.AudioCodec != "" && config.AudioCodec != videoInfo.AudioCodec)

/-- Rendering of a frame rate with `fmt.Sprintf("%.3f", ...)`.  The exact
decimal rendering is irrelevant to every claim (the string is only carried
along inside the argument list), so the rational is rendered directly. -/
def formatFixed3 (q : ℚ) : String := toString q

/-- Codec/quality argument tail built by `concatenateVideoSegmentsWithConfig`
(part_001 lines 557–620) after `-f concat -safe 0 -i <list>`: the re-encode
parameter block when `needsReencoding`, `-c copy` when the config asks to
preserve codecs or is absent, `-c:v copy -c:a copy` otherwise. -/
def concatVideoArgsTail (config : Option VideoConfig) (videoInfo : VideoInfo) :
    List String :=
  match config with
  | some config =>
    if needsReencoding config videoInfo then
      ["-c:v", if config.VideoCodec != "" then config.VideoCodec else "libx264"] ++
      ["-c:a", if config.AudioCodec != "" then config.AudioCodec else "aac"] ++
      (if decide (config.FrameRate > 0) then ["-r", formatFixed3 config.FrameRate]
       else []) ++
      (if config.TargetResolution != "" then ["-s", config.TargetResolution]
       else []) ++
      (if config.PixelFormat != "" then ["-pix_fmt", config.PixelFormat]
       else []) ++
      ["-crf", if decide (config.CRF > 0) then toString config.CRF else "18"] ++
      ["-preset", if config.Preset != "" then config.Preset else "medium"]
    else if config.PreserveCodecs then ["-c", "copy"]
    else ["-c:v", "copy", "-c:a", "copy"]
  | none => ["-c", "copy"]

/-- An argument tail that stream-copies both streams instead of
re-encoding: either the single `-c copy` or the per-stream
`-c:v copy -c:a copy` form. -/
def isStreamCopyTail (args : List String) : Prop :=
  args = ["-c", "copy"] ∨ args = ["-c:v", "copy", "-c:a", "copy"]

/-- The spec's decision rule, written from its words: re-encode exactly
when the normalized resolution, frame rate, pixel format, video codec or
audio codec of the supplied config differs from the reference descriptor,
or an explicit bitrate override is requested.  `VideoConfig` carries no
bitrate field, so the bitrate-override disjunct is the constantly false
proposition. -/
def reencodeRequired (config : VideoConfig) (videoInfo : VideoInfo) : Prop :=
  (config.TargetResolution ≠ "" ∧
    parseResolution config.TargetResolution ≠
      formatWxH videoInfo.Width videoInfo.Height) ∨
  (config.FrameRate > 0 ∧ config.FrameRate ≠ videoInfo.FrameRate) ∨
  (config.PixelFormat ≠ "" ∧ config.PixelFormat ≠ videoInfo.PixelFormat) ∨
  (config.VideoCodec ≠ "" ∧ config.VideoCodec ≠ videoInfo.VideoCodec) ∨
  (config.AudioCodec ≠ "" ∧ config.AudioCodec ≠ videoInfo.AudioCodec) ∨
  False

/-! ## Reference-list construction of `ConcatenateSegments`
(audio/segment.go lines 60–141 and its video twin, part_008), and of the
top-level `ConcatenateVideoSegments` (part_001 lines 336–430).

The filesystem at combine time is a predicate `onDisk`; `filepath.Abs` is
the identity in this model (it cannot fail on the inputs of interest). -/

/-- Reference-list phase of `audio.ConcatenateSegments` /
`video.ConcatenateSegments`: reject an empty input list, probe the first
segment (`New` stats it and fails when it does not exist), write one line
per surviving path — skipping, with a printed warning, every path that no
longer exists — and fail with `no valid segments` when no line was
written.  Returns the ordered reference list on success. -/
def concatenateSegmentsRefList (onDisk : String → Bool)
    (segmentPaths : List String) : Except String (List String) :=
  match segmentPaths with
  | [] => .error "no segments to concatenate"
  | first :: _ =>
    if !onDisk first then .error "failed to open first segment"
    else
      let refs := segmentPaths.filter (fun p => onDisk p)
      if refs.isEmpty then .error "no valid segments found to concatenate"
      else .ok refs

/-- Reference-list phase of the top-level `ConcatenateVideoSegments`
(part_001 lines 336–360): no probe of the first segment and no emptiness
check of the written list — missing paths are skipped and whatever remains
is handed to the combine invocation. -/
def concatenateVideoSegmentsRefList (onDisk : String → Bool)
    (segmentPaths : List String) : Except String (List String) :=
  if segmentPaths.isEmpty then .error "no segments to concatenate"
  else .ok (segmentPaths.filter (fun p => onDisk p))

/-! ## Empty-segment handling of `RemoveAudioSilence` (audio.go, first
copy, lines 84–94) -/

/-- Outcome of the early zero-segment branch of `RemoveAudioSilence`:
either an empty output file is created and the function returns `nil`,
or creating that file failed, or there were segments and the pipeline
continues with them. -/
inductive RemoveAudioOutcome where
  | createdEmptyAndReturnedNil : RemoveAudioOutcome
  | emptyFileCreateFailed : RemoveAudioOutcome
  | continuedWith : List AudioSegment → RemoveAudioOutcome
deriving DecidableEq, Repr

/-- The branch on `len(segments) == 0` of `RemoveAudioSilence` (audio.go,
first copy, lines 84–94): with zero detected segments it creates an empty
file at the output path (`createOk` models whether `os.Create` succeeds)
and returns `nil`; otherwise the pipeline continues with the segments. -/
def removeAudioSilenceStep (segments : List AudioSegment) (createOk : Bool) :
    RemoveAudioOutcome :=
  if segments.isEmpty then
    if createOk then .createdEmptyAndReturnedNil else .emptyFileCreateFailed
  else .continuedWith segments

/-! ## Helper lemmas -/

section RatReducible

set_option allowUnsafeReducibility true

attribute [local semireducible] Rat.sub Rat.add Rat.mul Rat.inv Rat.ofScientific

/-- Membership in a conditional segment emission pins down the segment and
its minimum duration. -/
theorem mem_emitSeg {s : AudioSegment} {a b : ℚ} (h : s ∈ emitSeg a b) :
    s = ⟨a, b, b - a⟩ ∧ 1/100 < b - a := by
  unfold emitSeg at h
  split at h <;> simp_all

/-- A conditional segment emission is a sublist of length at most one,
hence pairwise for any relation. -/
theorem emitSeg_pairwise (R : AudioSegment → AudioSegment → Prop) (a b : ℚ) :
    (emitSeg a b).Pairwise R := by
  unfold emitSeg
  split <;> simp

/-- Invariant of the interval loop of the first `DetectNonSilentSegments`:
every produced segment starts at or after the incoming `lastEnd` and is
nonempty, the produced segments are pairwise ordered and disjoint, and the
final `lastEnd` bounds every produced segment's end unless the loop broke
out (in which case the final `lastEnd` is the total duration `D`). -/
theorem detectLoopV1_invariant (D : ℚ) :
    ∀ (ivs : List (ℚ × ℚ)) (le : ℚ),
      (∀ s ∈ (detectLoopV1 D ivs le).1,
          le ≤ s.StartTime ∧ s.StartTime < s.EndTime) ∧
      (detectLoopV1 D ivs le).1.Pairwise segBefore ∧
      ((∀ s ∈ (detectLoopV1 D ivs le).1,
            s.EndTime ≤ (detectLoopV1 D ivs le).2) ∧
          le ≤ (detectLoopV1 D ivs le).2 ∨
        (detectLoopV1 D ivs le).2 = D)
  | [], le => by
    simp [detectLoopV1]
  | (s, e) :: rest, le => by
    obtain ⟨IH1, IH2, IH3⟩ := detectLoopV1_invariant D rest e
    simp only [detectLoopV1]
    have hle_start : le ≤ if s < le then le else s := by
      split
      · exact le_refl le
      · exact le_of_not_lt (by assumption)
    set start := if s < le then le else s with hstart
    by_cases he : e < start
    · rw [if_pos he]
      refine ⟨?_, emitSeg_pairwise _ _ _, Or.inr rfl⟩
      intro t ht
      obtain ⟨rfl, hd⟩ := mem_emitSeg ht
      exact ⟨le_refl _, by linarith⟩
    · rw [if_neg he]
      have hstart_e : start ≤ e := le_of_not_lt he
      refine ⟨?_, ?_, ?_⟩
      · intro t ht
        rcases List.mem_append.mp ht with h1 | h2
        · obtain ⟨rfl, hd⟩ := mem_emitSeg h1
          exact ⟨le_refl _, by linarith⟩
        · obtain ⟨hA, hB⟩ := IH1 t h2
          exact ⟨by linarith, hB⟩
      · rw [List.pairwise_append]
        refine ⟨emitSeg_pairwise _ _ _, IH2, ?_⟩
        intro a ha b hb
        obtain ⟨rfl, hd⟩ := mem_emitSeg ha
        obtain ⟨hB1, _⟩ := IH1 b hb
        exact ⟨by simpa using le_trans hstart_e hB1, by simp; linarith⟩
      · rcases IH3 with ⟨htail, hle2⟩ | hD
        · left
          refine ⟨?_, by linarith⟩
          intro t ht
          rcases List.mem_append.mp ht with h1 | h2
          · obtain ⟨rfl, _⟩ := mem_emitSeg h1
            simp only
            linarith
          · exact htail t h2
        · right; exact hD

/-- Every segment produced by the loop of the first
`DetectNonSilentSegments` records its own length in `Duration` and exceeds
the `0.01` minimum. -/
theorem detectLoopV1_duration (D : ℚ) :
    ∀ (ivs : List (ℚ × ℚ)) (le : ℚ), ∀ s ∈ (detectLoopV1 D ivs le).1,
      1/100 < s.Duration ∧ s.Duration = s.EndTime - s.StartTime
  | [], le => by simp [detectLoopV1]
  | (s, e) :: rest, le => by
    simp only [detectLoopV1]
    set start := if s < le then le else s with hstart
    by_cases he : e < start
    · rw [if_pos he]
      intro t ht
      obtain ⟨rfl, hd⟩ := mem_emitSeg ht
      exact ⟨hd, rfl⟩
    · rw [if_neg he]
      intro t ht
      rcases List.mem_append.mp ht with h1 | h2
      · obtain ⟨rfl, hd⟩ := mem_emitSeg h1
        exact ⟨hd, rfl⟩
      · exact detectLoopV1_duration D rest e t h2

/-- Pairwise disjointness and strictly increasing starts for the first
`DetectNonSilentSegments`, on every input. -/
theorem detectV1_pairwise (intervals : List (ℚ × ℚ)) (D : ℚ) :
    (detectNonSilentSegmentsV1 intervals D).Pairwise segBefore := by
  obtain ⟨h1, h2, h3⟩ := detectLoopV1_invariant D intervals 0
  unfold detectNonSilentSegmentsV1
  rw [List.pairwise_append]
  refine ⟨h2, emitSeg_pairwise _ _ _, ?_⟩
  intro a ha b hb
  obtain ⟨rfl, hd⟩ := mem_emitSeg hb
  rcases h3 with ⟨hEnd, _⟩ | hfinD
  · exact ⟨hEnd a ha, lt_of_lt_of_le (h1 a ha).2 (hEnd a ha)⟩
  · rw [hfinD] at hd
    simp at hd
    linarith

/-- Unrolling a conditional-append fold into a filter and a map. -/
theorem foldl_guard_append {α β : Type} (d : β → Prop) [DecidablePred d]
    (g : β → α) :
    ∀ (l : List β) (acc : List α),
      l.foldl (fun a i => if d i then a else a ++ [g i]) acc =
        acc ++ (l.filter (fun i => decide (¬ d i))).map g
  | [], acc => by simp
  | i :: l, acc => by
    by_cases h : d i <;>
      simp [h, List.foldl_cons, foldl_guard_append d g l, List.filter_cons]

/-- The interior-gap loop of the second `DetectNonSilentSegments`, written
as the list of gap candidates that survive the `0.5` short-segment
threshold. -/
theorem middleSegmentsV2_eq (S E : List ℚ) :
    middleSegmentsV2 S E =
      ((List.range (S.length - 1)).filter
          (fun i => decide (¬ (S.getD (i + 1) 0 - E.getD i 0 < 1/2)))).map
        (fun i => ⟨E.getD i 0, S.getD (i + 1) 0,
          S.getD (i + 1) 0 - E.getD i 0⟩) := by
  show List.foldl
      (fun a i => if S.getD (i + 1) 0 - E.getD i 0 < 1/2 then a
        else a ++ [(⟨E.getD i 0, S.getD (i + 1) 0,
          S.getD (i + 1) 0 - E.getD i 0⟩ : AudioSegment)])
      [] (List.range (S.length - 1)) =
    ((List.range (S.length - 1)).filter
        (fun i => decide (¬ (S.getD (i + 1) 0 - E.getD i 0 < 1/2)))).map
      (fun i => ⟨E.getD i 0, S.getD (i + 1) 0,
        S.getD (i + 1) 0 - E.getD i 0⟩)
  refine (foldl_guard_append
    (fun i => S.getD (i + 1) 0 - E.getD i 0 < 1/2)
    (fun i => (⟨E.getD i 0, S.getD (i + 1) 0,
      S.getD (i + 1) 0 - E.getD i 0⟩ : AudioSegment))
    (List.range (S.length - 1)) []).trans ?_
  simp

/-- Monotonicity of the silence ends extracted from properly interleaved
detector output. -/
theorem interleaved_ends_mono {S E : List ℚ} (h : Interleaved S E) :
    ∀ i j, i ≤ j → j < S.length → E.getD i 0 ≤ E.getD j 0 := by
  obtain ⟨_, hSE, hES⟩ := h
  intro i j hij hj
  induction j, hij using Nat.le_induction with
  | base => exact le_refl _
  | succ k hk IH =>
    have hkS : k < S.length - 1 := by omega
    have h1 : E.getD k 0 ≤ S.getD (k + 1) 0 := hES k hkS
    have h2 : S.getD (k + 1) 0 ≤ E.getD (k + 1) 0 := hSE (k + 1) (by omega)
    exact le_trans (IH (by omega)) (le_trans h1 h2)

/-- From interleaving, a silence start is bounded by every later silence
end. -/
theorem interleaved_start_le_end {S E : List ℚ} (h : Interleaved S E) :
    ∀ i j, i ≤ j → j < S.length → S.getD i 0 ≤ E.getD j 0 := by
  intro i j hij hj
  exact le_trans (h.2.1 i (by omega))
    (interleaved_ends_mono h i j hij hj)

/-- The last element of a nonempty list, through `getLast?`, as a `getD`
at the final index. -/
theorem getLast?_eq_getD {l : List ℚ} (h : l ≠ []) :
    l.getLast? = some (l.getD (l.length - 1) 0) := by
  have hpos : 0 < l.length := List.length_pos.mpr h
  rw [List.getLast?_eq_getElem?, List.getD_eq_getElem?_getD]
  cases hl : l[l.length - 1]? with
  | none =>
    rw [List.getElem?_eq_none_iff] at hl
    omega
  | some x => rfl

/-- Membership in the middle block of the second computer: the member is a
surviving interior-gap candidate. -/
theorem mem_middleSegmentsV2 {S E : List ℚ} {seg : AudioSegment}
    (hseg : seg ∈ middleSegmentsV2 S E) :
    ∃ i, i < S.length - 1 ∧ 1/2 ≤ S.getD (i + 1) 0 - E.getD i 0 ∧
      seg = ⟨E.getD i 0, S.getD (i + 1) 0,
        S.getD (i + 1) 0 - E.getD i 0⟩ := by
  rw [middleSegmentsV2_eq] at hseg
  obtain ⟨i, hi, rfl⟩ := List.mem_map.mp hseg
  rw [List.mem_filter, List.mem_range] at hi
  refine ⟨i, hi.1, ?_, rfl⟩
  have := hi.2
  simp only [decide_eq_true_eq, not_lt] at this
  exact this

/-- Membership in the leading block of the second computer. -/
theorem mem_leadingSegmentV2 {S : List ℚ} {seg : AudioSegment}
    (hseg : seg ∈ leadingSegmentV2 S) :
    0 < S.getD 0 0 ∧ seg = ⟨0, S.getD 0 0, S.getD 0 0⟩ := by
  unfold leadingSegmentV2 at hseg
  cases S with
  | nil => simp at hseg
  | cons s0 S' => split at hseg <;> simp_all

/-- Membership in the trailing block of the second computer. -/
theorem mem_trailingSegmentV2 {E : List ℚ} {D : ℚ} {seg : AudioSegment}
    (hEne : E ≠ []) (hseg : seg ∈ trailingSegmentV2 E D) :
    E.getD (E.length - 1) 0 < D ∧
      seg = ⟨E.getD (E.length - 1) 0, D, D - E.getD (E.length - 1) 0⟩ := by
  unfold trailingSegmentV2 at hseg
  rw [getLast?_eq_getD hEne] at hseg
  simp only at hseg
  split at hseg <;> simp_all

/-- The leading block holds at most one segment. -/
theorem leadingSegmentV2_pairwise (S : List ℚ)
    (R : AudioSegment → AudioSegment → Prop) :
    (leadingSegmentV2 S).Pairwise R := by
  cases S with
  | nil => simp [leadingSegmentV2]
  | cons s0 S' =>
    simp only [leadingSegmentV2]
    split <;> simp

/-- The trailing block holds at most one segment. -/
theorem trailingSegmentV2_pairwise (E : List ℚ) (D : ℚ)
    (R : AudioSegment → AudioSegment → Prop) :
    (trailingSegmentV2 E D).Pairwise R := by
  unfold trailingSegmentV2
  rcases hE : E.getLast? with _ | e
  · simp
  · simp only
    split <;> simp

/-- Pairwise disjointness and strictly increasing starts for the second
`DetectNonSilentSegments` / `DetectSilence` on properly interleaved
detector output with every silence start matched by an end. -/
theorem detectV2_pairwise {S E : List ℚ} (D : ℚ) (h : Interleaved S E) :
    (detectNonSilentSegmentsV2 S E D).Pairwise segBefore := by
  unfold detectNonSilentSegmentsV2
  by_cases hemp : S.isEmpty ∨ E.isEmpty
  · rw [if_pos hemp]; exact List.Pairwise.nil
  · rw [if_neg hemp]
    push_neg at hemp
    obtain ⟨hS, hE⟩ := hemp
    have hSne : S ≠ [] := by simpa [List.isEmpty_iff] using hS
    have hEne : E ≠ [] := by simpa [List.isEmpty_iff] using hE
    have hlen : S.length = E.length := h.1
    have hSpos : 0 < S.length := List.length_pos.mpr hSne
    rw [List.pairwise_append]
    refine ⟨?_, trailingSegmentV2_pairwise E D _, ?_⟩
    · rw [List.pairwise_append]
      refine ⟨leadingSegmentV2_pairwise S _, ?_, ?_⟩
      · -- middle segments are pairwise ordered
        rw [middleSegmentsV2_eq, List.pairwise_map]
        refine (List.Pairwise.filter _ (List.pairwise_lt_range _)).imp_of_mem
          ?_
        intro i j hi hj hij
        rw [List.mem_filter, List.mem_range] at hi hj
        have hikeep : 1/2 ≤ S.getD (i + 1) 0 - E.getD i 0 := by
          have := hi.2
          simp only [decide_eq_true_eq, not_lt] at this
          exact this
        have h1 : S.getD (i + 1) 0 ≤ E.getD j 0 :=
          interleaved_start_le_end h (i + 1) j hij (by omega)
        refine ⟨h1, ?_⟩
        simp only
        linarith
      · -- leading before middles
        intro a ha b hb
        obtain ⟨hpos0, rfl⟩ := mem_leadingSegmentV2 ha
        obtain ⟨i, hi, hkeep, rfl⟩ := mem_middleSegmentsV2 hb
        have h1 : S.getD 0 0 ≤ E.getD i 0 :=
          interleaved_start_le_end h 0 i (by omega) (by omega)
        exact ⟨h1, by simp only; linarith⟩
    · -- leading and middles before trailing
      intro a ha b hb
      obtain ⟨hlt, rfl⟩ := mem_trailingSegmentV2 hEne hb
      rw [← hlen]
      rcases List.mem_append.mp ha with hal | ham
      · obtain ⟨hpos0, rfl⟩ := mem_leadingSegmentV2 hal
        have h1 : S.getD 0 0 ≤ E.getD (S.length - 1) 0 :=
          interleaved_start_le_end h 0 (S.length - 1) (by omega) (by omega)
        exact ⟨h1, by simp only; linarith⟩
      · obtain ⟨i, hi, hkeep, rfl⟩ := mem_middleSegmentsV2 ham
        have h1 : S.getD (i + 1) 0 ≤ E.getD (S.length - 1) 0 :=
          interleaved_start_le_end h (i + 1) (S.length - 1) (by omega)
            (by omega)
        refine ⟨h1, ?_⟩
        simp only
        linarith

/-- Folding the write-back step preserves the array length. -/
theorem foldl_write_length :
    ∀ (rs : List ExtractionResult) (acc : List String),
      (rs.foldl (fun acc r => if r.err then acc
        else acc.set r.index r.segmentPath) acc).length = acc.length
  | [], _ => rfl
  | r :: rs, acc => by
    rw [List.foldl_cons, foldl_write_length rs]
    by_cases h : r.err <;> simp [h]

/-- Slot contents after folding the write-back step: slot `i` holds
`pathOf i` exactly when some successful result with index `i` was folded
in, and is untouched otherwise.  (All successful results are assumed to
carry the path determined by their index, as the worker code guarantees.) -/
theorem foldl_write_getD (pathOf : ℕ → String) :
    ∀ (rs : List ExtractionResult) (acc : List String) (i : ℕ),
      (∀ r ∈ rs, r.err = false →
        r.segmentPath = pathOf r.index ∧ r.index < acc.length) →
      (rs.foldl (fun acc r => if r.err then acc
          else acc.set r.index r.segmentPath) acc).getD i "" =
        if ∃ r ∈ rs, r.err = false ∧ r.index = i then pathOf i
        else acc.getD i ""
  | [], acc, i, _ => by simp
  | r :: rs, acc, i, hmem => by
    rw [List.foldl_cons]
    have hacc' : ∀ r' ∈ rs, r'.err = false →
        r'.segmentPath = pathOf r'.index ∧
        r'.index <
          (if r.err then acc else acc.set r.index r.segmentPath).length := by
      intro r' hr' herr'
      obtain ⟨hp, hl⟩ := hmem r' (List.mem_cons_of_mem _ hr') herr'
      refine ⟨hp, ?_⟩
      split <;> simpa [List.length_set]
    rw [foldl_write_getD pathOf rs _ i hacc']
    by_cases hrest : ∃ r' ∈ rs, r'.err = false ∧ r'.index = i
    · rw [if_pos hrest]
      obtain ⟨r', hr', hcond⟩ := hrest
      rw [if_pos ⟨r', List.mem_cons_of_mem _ hr', hcond⟩]
    · rw [if_neg hrest]
      by_cases hr : r.err = false ∧ r.index = i
      · obtain ⟨herr, hidx⟩ := hr
        have hex : ∃ x ∈ r :: rs, x.err = false ∧ x.index = i :=
          ⟨r, List.mem_cons_self r rs, ⟨herr, hidx⟩⟩
        rw [if_pos hex]
        obtain ⟨hp, hl⟩ := hmem r (List.mem_cons_self r rs) herr
        rw [if_neg (by simp [herr])]
        subst hidx
        rw [hp]
        simp [List.getD_eq_getElem?_getD, List.getElem?_set, hl]
      · have hno : ¬ ∃ x ∈ r :: rs, x.err = false ∧ x.index = i := by
          rintro ⟨x, hx, hxe, hxi⟩
          rcases List.mem_cons.mp hx with rfl | hx'
          · exact hr ⟨hxe, hxi⟩
          · exact hrest ⟨x, hx', hxe, hxi⟩
        rw [if_neg hno]
        by_cases herr : r.err
        · rw [if_pos herr]
        · rw [if_neg herr]
          have hne : r.index ≠ i := fun hh =>
            hr ⟨by simpa using herr, hh⟩
          simp [List.getD_eq_getElem?_getD, List.getElem?_set, hne]

/-- Every member of the canonical result list is the result of its own
index's job. -/
theorem canonicalResults_mem {n : ℕ} {sOf : ℕ → Bool} {pathOf : ℕ → String}
    {r : ExtractionResult} (hr : r ∈ canonicalResults n sOf pathOf) :
    r.index < n ∧ (r.err = false → r.segmentPath = pathOf r.index) := by
  unfold canonicalResults at hr
  obtain ⟨i, hi, hEq⟩ := List.mem_map.mp hr
  rw [List.mem_range] at hi
  by_cases hs : sOf i
  · rw [if_pos hs] at hEq
    subst hEq
    simp [hi]
  · rw [if_neg hs] at hEq
    subst hEq
    simp [hi]

/-- A successful result with index `i` occurs in the canonical result list
exactly when job `i` exists and succeeded. -/
theorem canonicalResults_exists_iff (n : ℕ) (sOf : ℕ → Bool)
    (pathOf : ℕ → String) (i : ℕ) :
    (∃ r ∈ canonicalResults n sOf pathOf, r.err = false ∧ r.index = i) ↔
      i < n ∧ sOf i = true := by
  unfold canonicalResults
  constructor
  · rintro ⟨r, hr, herr, hidx⟩
    obtain ⟨j, hj, hEq⟩ := List.mem_map.mp hr
    rw [List.mem_range] at hj
    by_cases hs : sOf j
    · rw [if_pos hs] at hEq
      subst hEq
      simp only at hidx
      subst hidx
      exact ⟨hj, hs⟩
    · rw [if_neg hs] at hEq
      subst hEq
      simp at herr
  · rintro ⟨hi, hs⟩
    exact ⟨⟨i, pathOf i, false⟩,
      List.mem_map.mpr ⟨i, List.mem_range.mpr hi, by simp [hs]⟩, rfl, rfl⟩

/-- Characterization of the collected segment paths: for any completion
order (any permutation of the canonical result multiset), the collection
produces exactly the successful paths in job order. -/
theorem collectSegmentPaths_spec (n : ℕ) (sOf : ℕ → Bool)
    (pathOf : ℕ → String) (rs : List ExtractionResult)
    (hperm : rs.Perm (canonicalResults n sOf pathOf))
    (hpath : ∀ i, i < n → sOf i = true → pathOf i ≠ "") :
    collectSegmentPaths n rs =
      ((List.range n).filter (fun i => sOf i)).map pathOf := by
  unfold collectSegmentPaths
  have hmem : ∀ r ∈ rs, r.err = false →
      r.segmentPath = pathOf r.index ∧
      r.index < (List.replicate n (α := String) "").length := by
    intro r hr herr
    have := canonicalResults_mem (hperm.mem_iff.mp hr)
    exact ⟨this.2 herr, by simpa using this.1⟩
  have harr : rs.foldl (fun acc r => if r.err then acc
      else acc.set r.index r.segmentPath) (List.replicate n "") =
      (List.range n).map (fun i => if sOf i then pathOf i else "") := by
    apply List.ext_getElem
    · rw [foldl_write_length]
      simp
    · intro i h1 h2
      have hlen : i < n := by
        rw [foldl_write_length] at h1
        simpa using h1
      rw [← List.getD_eq_getElem _ "" h1, ← List.getD_eq_getElem _ "" h2]
      rw [foldl_write_getD pathOf rs _ i hmem]
      have hex : (∃ r ∈ rs, r.err = false ∧ r.index = i) ↔
          i < n ∧ sOf i = true := by
        rw [← canonicalResults_exists_iff n sOf pathOf i]
        constructor
        · rintro ⟨r, hr, hc⟩
          exact ⟨r, hperm.mem_iff.mp hr, hc⟩
        · rintro ⟨r, hr, hc⟩
          exact ⟨r, hperm.mem_iff.mpr hr, hc⟩
      have hrep : (List.replicate n (α := String) "").getD i "" = "" := by
        simp [List.getD_eq_getElem?_getD, List.getElem?_replicate, hlen]
      by_cases hs : sOf i
      · rw [if_pos (hex.mpr ⟨hlen, hs⟩)]
        simp [hlen, hs]
      · rw [if_neg (fun hc => hs (hex.mp hc).2), hrep]
        simp [hlen, hs]
  rw [harr, List.filter_map]
  have hfc : (List.range n).filter
      ((fun p => decide (p ≠ "")) ∘
        (fun i => if sOf i then pathOf i else "")) =
      (List.range n).filter (fun i => sOf i) := by
    apply List.filter_congr
    intro i hi
    rw [List.mem_range] at hi
    by_cases hs : sOf i
    · simp [Function.comp, hs, hpath i hi hs]
    · simp [Function.comp, hs]
  rw [hfc]
  apply List.map_congr_left
  intro i hi
  rw [List.mem_filter] at hi
  simp [hi.2]

/-- Booleans of the source's re-encode test agree with the spec's decision
rule. -/
theorem needsReencoding_iff (config : VideoConfig) (videoInfo : VideoInfo) :
    needsReencoding config videoInfo = true ↔
      reencodeRequired config videoInfo := by
  unfold needsReencoding reencodeRequired
  simp only [Bool.or_eq_true, Bool.and_eq_true, bne_iff_ne, ne_eq,
    decide_eq_true_eq, gt_iff_lt, or_false]
  tauto

/-- When the source decides to re-encode, the built argument tail is not a
stream-copy tail (it always carries at least the codec, crf and preset
parameters). -/
theorem concatVideoArgsTail_reencode_not_copy (config : VideoConfig)
    (videoInfo : VideoInfo) (h : needsReencoding config videoInfo = true) :
    ¬ isStreamCopyTail (concatVideoArgsTail (some config) videoInfo) := by
  intro hc
  simp only [concatVideoArgsTail] at hc
  rw [if_pos h] at hc
  rcases hc with h1 | h1 <;>
  · have hL := congrArg List.length h1
    simp only [List.length_append, List.length_cons, List.length_nil,
      apply_ite List.length] at hL
    split_ifs at hL <;> omega

/-! ## Claim theorems -/

/-- C1 (amended): the first `DetectNonSilentSegments` returns pairwise
non-overlapping segments with strictly increasing start times on every
silence-interval input; the second one does so provided every silence
start has a matching end and the intervals are properly interleaved
(merely ordered inputs, or a dangling final silence start, can produce
overlapping segments there — see the counterexample). -/
theorem nonSilentSegments_pairwise_sorted :
    (∀ (intervals : List (ℚ × ℚ)) (D : ℚ),
        (detectNonSilentSegmentsV1 intervals D).Pairwise segBefore) ∧
    (∀ (S E : List ℚ) (D : ℚ), Interleaved S E →
        (detectNonSilentSegmentsV2 S E D).Pairwise segBefore) :=
  ⟨detectV1_pairwise, fun _ _ D h => detectV2_pairwise D h⟩

/-- Witness for C1 at a concrete interleaved input. -/
theorem nonSilentSegments_pairwise_sorted_witness :
    Interleaved [1, 4] [2, 5] ∧
    (detectNonSilentSegmentsV2 [1, 4] [2, 5] 10).Pairwise segBefore :=
  ⟨by decide,
    nonSilentSegments_pairwise_sorted.2 [1, 4] [2, 5] 10 (by decide)⟩

/-- Counterexample for C1 as stated: on the ordered input
`S = [1, 5]`, `E = [2]` (a well-formed detector log whose final silence
start is unresolved) with duration `10`, the second computer emits the
overlapping segments `[2, 5]` and `[2, 10]`, whose start times also fail
to increase strictly. -/
theorem nonSilentSegments_overlap_counterexample :
    detectNonSilentSegmentsV2 [1, 5] [2] 10 =
      [⟨0, 1, 1⟩, ⟨2, 5, 3⟩, ⟨2, 10, 8⟩] ∧
    ¬ segBefore (⟨2, 5, 3⟩ : AudioSegment) ⟨2, 10, 8⟩ ∧
    (1 : ℚ) ≤ 2 ∧ (2 : ℚ) ≤ 5 := by
  refine ⟨by decide, by decide, by decide, by decide⟩

/-- C2 (amended): with no parsed silence intervals, the first
`DetectNonSilentSegments` returns exactly the whole-file segment `[0, D]`
whenever `D` exceeds the `0.01` minimum-duration threshold; the second
`DetectNonSilentSegments` / `DetectSilence` instead returns the empty
list whenever either parsed array is empty (its caller then short-circuits
to a whole-file copy). -/
theorem emptySilence_segments :
    (∀ D : ℚ, 1/100 < D →
        detectNonSilentSegmentsV1 [] D = [⟨0, D, D⟩]) ∧
    (∀ (S E : List ℚ) (D : ℚ), S = [] ∨ E = [] →
        detectNonSilentSegmentsV2 S E D = []) := by
  constructor
  · intro D hD
    unfold detectNonSilentSegmentsV1 detectLoopV1 emitSeg
    simp only [List.nil_append, sub_zero]
    rw [if_pos hD]
  · intro S E D h
    unfold detectNonSilentSegmentsV2
    rcases h with rfl | rfl
    · simp
    · simp

/-- Witness for C2 at duration `10`. -/
theorem emptySilence_segments_witness :
    (1/100 : ℚ) < 10 ∧
    detectNonSilentSegmentsV1 [] 10 = [⟨0, 10, 10⟩] ∧
    detectNonSilentSegmentsV2 [] [] 10 = [] :=
  ⟨by decide, emptySilence_segments.1 10 (by decide),
    emptySilence_segments.2 [] [] 10 (Or.inl rfl)⟩

/-- Counterexample for C2 as stated: with no silence intervals and
duration `10`, the second computer returns zero segments, not one segment
spanning `[0, 10]`. -/
theorem emptySilence_v2_returns_empty :
    (detectNonSilentSegmentsV2 [] [] 10).length = 0 ∧ (0 : ℚ) < 10 := by
  refine ⟨by decide, by decide⟩

/-- C3 (amended): in the second `DetectNonSilentSegments` /
`DetectSilence`, the interior-gap candidate `[E[i], S[i+1]]` is retained
exactly when its duration reaches the fixed `0.5` short-segment threshold
(the first `DetectNonSilentSegments` instead uses a `0.01` minimum — see
the counterexample). -/
theorem interiorGaps_halfSecond_threshold :
    ∀ (S E : List ℚ), S.length ≤ E.length + 1 →
      middleSegmentsV2 S E =
        ((List.range (S.length - 1)).filter
            (fun i => decide (1/2 ≤ S.getD (i + 1) 0 - E.getD i 0))).map
          (fun i => ⟨E.getD i 0, S.getD (i + 1) 0,
            S.getD (i + 1) 0 - E.getD i 0⟩) := by
  intro S E _
  rw [middleSegmentsV2_eq]
  congr 1
  apply List.filter_congr
  intro i _
  simp [not_lt]

/-- Witness for C3: the `0.25`-second gap is discarded, the `2`-second gap
is kept. -/
theorem interiorGaps_halfSecond_threshold_witness :
    ([(1 : ℚ), 2, 4].length ≤ [(7 : ℚ)/4, 3].length + 1) ∧
    middleSegmentsV2 [1, 2, 4] [7/4, 3] =
      ((List.range ([(1 : ℚ), 2, 4].length - 1)).filter
          (fun i => decide (1/2 ≤
            [(1 : ℚ), 2, 4].getD (i + 1) 0 - [(7 : ℚ)/4, 3].getD i 0))).map
        (fun i => ⟨[(7 : ℚ)/4, 3].getD i 0, [(1 : ℚ), 2, 4].getD (i + 1) 0,
          [(1 : ℚ), 2, 4].getD (i + 1) 0 - [(7 : ℚ)/4, 3].getD i 0⟩) :=
  ⟨by decide, interiorGaps_halfSecond_threshold [1, 2, 4] [7/4, 3]
    (by decide)⟩

/-- Counterexample for C3 as stated about the first
`DetectNonSilentSegments`: between the silences `(1, 2)` and `(2.3, 3)`
the interior gap `[2, 2.3]` lasts `0.3 < 0.5` seconds, yet the first
computer retains it (its threshold is `0.01`). -/
theorem interiorGap_v1_keeps_short_gap :
    (⟨2, 23/10, 3/10⟩ : AudioSegment) ∈
      detectNonSilentSegmentsV1 [(1, 2), (23/10, 3)] 10 ∧
    (23/10 : ℚ) - 2 < 1/2 := by
  refine ⟨by decide, by decide⟩

/-- C4 (amended): the first `DetectNonSilentSegments` clamps a silence
start that precedes the running `lastEnd` forward to `lastEnd` (the
computation is insensitive to replacing such a start by `lastEnd`), and
every segment it emits has strictly positive duration; the second
computer has no such guard and can emit overlapping segments — see the
counterexample. -/
theorem clampForward_v1 :
    (∀ (D s e lastEnd : ℚ) (rest : List (ℚ × ℚ)), s ≤ lastEnd →
        detectLoopV1 D ((s, e) :: rest) lastEnd =
          detectLoopV1 D ((lastEnd, e) :: rest) lastEnd) ∧
    (∀ (intervals : List (ℚ × ℚ)) (D : ℚ),
        ∀ seg ∈ detectNonSilentSegmentsV1 intervals D,
          0 < seg.Duration ∧ seg.StartTime < seg.EndTime) := by
  constructor
  · intro D s e lastEnd rest hs
    simp only [detectLoopV1]
    have hstart : (if s < lastEnd then lastEnd else s) =
        (if lastEnd < lastEnd then lastEnd else lastEnd) := by
      by_cases h : s < lastEnd
      · simp [h]
      · have heq : s = lastEnd := le_antisymm hs (not_lt.mp h)
        simp [h, heq]
    rw [hstart]
  · intro intervals D seg hseg
    unfold detectNonSilentSegmentsV1 at hseg
    rcases List.mem_append.mp hseg with h1 | h2
    · obtain ⟨hd, he⟩ := detectLoopV1_duration D intervals 0 seg h1
      obtain ⟨hP1, _, _⟩ := detectLoopV1_invariant D intervals 0
      exact ⟨by linarith, (hP1 seg h1).2⟩
    · obtain ⟨rfl, hd⟩ := mem_emitSeg h2
      refine ⟨?_, ?_⟩ <;> simp only <;> linarith

/-- Witness for C4: clamping a start of `1` below the previous end `2`,
and positivity of an emitted segment. -/
theorem clampForward_v1_witness :
    detectLoopV1 10 [((1 : ℚ), 3)] 2 = detectLoopV1 10 [((2 : ℚ), 3)] 2 ∧
    (0 < (⟨0, 1, 1⟩ : AudioSegment).Duration ∧
      (⟨0, 1, 1⟩ : AudioSegment).StartTime <
        (⟨0, 1, 1⟩ : AudioSegment).EndTime) :=
  ⟨clampForward_v1.1 10 1 3 2 [] (by decide),
    clampForward_v1.2 [(1, 2)] 10 ⟨0, 1, 1⟩ (by decide)⟩

/-- Counterexample for C4 as stated about the second computer: on
`S = [1, 5]`, `E = [2]`, `D = 10` the segment emitted after `[2, 5]`
starts at `2`, before the previous end `5`, instead of being clamped
forward. -/
theorem v2_unclamped_overlap :
    ((detectNonSilentSegmentsV2 [1, 5] [2] 10).getD 2
        ⟨0, 0, 0⟩).StartTime = 2 ∧
    ((detectNonSilentSegmentsV2 [1, 5] [2] 10).getD 1
        ⟨0, 0, 0⟩).EndTime = 5 ∧
    (2 : ℚ) < 5 := by
  refine ⟨by decide, by decide, by decide⟩

/-- C5: for every completion order of the extraction workers (every
permutation of the one-result-per-job multiset), each result lands in the
fixed-size array slot given by its job index, failed slots are filtered
out, and the concatenation input is exactly the successful paths in the
original temporal (index) order. -/
theorem extractionResults_indexed_ordered :
    ∀ (n : ℕ) (sOf : ℕ → Bool) (pathOf : ℕ → String)
      (rs : List ExtractionResult),
      rs.Perm (canonicalResults n sOf pathOf) →
      (∀ i, i < n → sOf i = true → pathOf i ≠ "") →
      collectSegmentPaths n rs =
        ((List.range n).filter (fun i => sOf i)).map pathOf :=
  collectSegmentPaths_spec

/-- Witness for C5: three jobs whose results arrive in reverse order, job
`1` failing; the survivors come out in index order. -/
theorem extractionResults_indexed_ordered_witness :
    collectSegmentPaths 3
        ((canonicalResults 3 (fun i => !(i == 1))
          (fun i => if i = 0 then "a" else if i = 1 then "b" else "c")).reverse) =
      ((List.range 3).filter (fun i => !(i == 1))).map
        (fun i => if i = 0 then "a" else if i = 1 then "b" else "c") :=
  extractionResults_indexed_ordered 3 _ _ _ (List.reverse_perm _) (by decide)

/-- C6: the video concatenation with config re-encodes exactly when the
spec's decision rule fires — normalized resolution, frame rate, pixel
format, video codec or audio codec differing from the descriptor, or a
bitrate override being requested (inexpressible for `VideoConfig`, hence
constantly false) — and with no config the tail is the pure stream copy
`-c copy`. -/
theorem concatCombine_reencode_iff :
    ∀ (config : VideoConfig) (videoInfo : VideoInfo),
      (isStreamCopyTail (concatVideoArgsTail (some config) videoInfo) ↔
        ¬ reencodeRequired config videoInfo) ∧
      concatVideoArgsTail none videoInfo = ["-c", "copy"] := by
  intro config videoInfo
  constructor
  · constructor
    · intro hc hrule
      exact concatVideoArgsTail_reencode_not_copy config videoInfo
        ((needsReencoding_iff config videoInfo).mpr hrule) hc
    · intro hrule
      have hb : needsReencoding config videoInfo = false := by
        simpa using mt (needsReencoding_iff config videoInfo).mp hrule
      simp only [concatVideoArgsTail]
      rw [if_neg (by simp [hb])]
      by_cases hp : config.PreserveCodecs
      · rw [if_pos hp]
        exact Or.inl rfl
      · rw [if_neg hp]
        exact Or.inr rfl
  · rfl

/-- C7: the worker count of `RemoveVideoSilence` is the minimum of the
CPU count, the fixed ceiling `8`, and the segment count. -/
theorem numWorkers_min_of_three :
    ∀ (numCPU segmentCount : ℕ),
      numWorkers numCPU segmentCount ≤ numCPU ∧
      numWorkers numCPU segmentCount ≤ 8 ∧
      numWorkers numCPU segmentCount ≤ segmentCount ∧
      (numWorkers numCPU segmentCount = numCPU ∨
        numWorkers numCPU segmentCount = 8 ∨
        numWorkers numCPU segmentCount = segmentCount) := by
  intro c k
  unfold numWorkers
  omega

/-- C8: when every extraction fails the pipeline tail returns the fatal
`all segments failed to process` error instead of concatenating; when at
least one succeeds it proceeds with the ordered survivors. -/
theorem allSegmentsFailed_fatal :
    ∀ (n : ℕ) (sOf : ℕ → Bool) (pathOf : ℕ → String)
      (rs : List ExtractionResult),
      rs.Perm (canonicalResults n sOf pathOf) →
      (∀ i, i < n → sOf i = true → pathOf i ≠ "") →
      ((∀ i, i < n → sOf i = false) →
        removeVideoSilencePlan n rs =
          .error "all segments failed to process") ∧
      ((∃ i, i < n ∧ sOf i = true) →
        removeVideoSilencePlan n rs =
          .ok (((List.range n).filter (fun i => sOf i)).map pathOf)) := by
  intro n sOf pathOf rs hperm hpath
  have hc := collectSegmentPaths_spec n sOf pathOf rs hperm hpath
  unfold removeVideoSilencePlan
  rw [hc]
  constructor
  · intro hall
    have hnil : (List.range n).filter (fun i => sOf i) = [] := by
      rw [List.filter_eq_nil_iff]
      intro a ha
      rw [List.mem_range] at ha
      simp [hall a ha]
    rw [hnil]
    simp
  · rintro ⟨i, hi, hs⟩
    have hne : ((List.range n).filter (fun i => sOf i)) ≠ [] := by
      intro h0
      have hmem : i ∈ (List.range n).filter (fun i => sOf i) :=
        List.mem_filter.mpr ⟨List.mem_range.mpr hi, hs⟩
      rw [h0] at hmem
      exact absurd hmem (List.not_mem_nil i)
    have hmapne :
        (((List.range n).filter (fun i => sOf i)).map pathOf) ≠ [] := by
      simpa [List.map_eq_nil_iff] using hne
    rw [if_neg (by simp [List.isEmpty_iff, hmapne])]

/-- Witness for C8: two jobs, both failing, produce the fatal error. -/
theorem allSegmentsFailed_fatal_witness :
    removeVideoSilencePlan 2
        (canonicalResults 2 (fun _ => false) (fun _ => "p")) =
      .error "all segments failed to process" :=
  (allSegmentsFailed_fatal 2 (fun _ => false) (fun _ => "p") _
    (List.Perm.refl _) (by simp)).1 (by simp)

/-- C9 (amended): in `ConcatenateSegments` a missing *first* segment path
aborts the whole concatenation (it is probed for stream info before the
reference list is built); missing later paths are skipped with a warning,
and because the existing first path is always written, the reference list
is never empty under a stable filesystem, so the `no valid segments`
error cannot fire there.  The top-level `ConcatenateVideoSegments` skips
every missing path (first included) and performs no emptiness check at
all. -/
theorem concatSegments_missing_paths :
    ∀ (onDisk : String → Bool) (first : String) (rest : List String),
      (onDisk first = false →
          concatenateSegmentsRefList onDisk (first :: rest) =
            .error "failed to open first segment") ∧
      (onDisk first = true →
          concatenateSegmentsRefList onDisk (first :: rest) =
            .ok ((first :: rest).filter (fun p => onDisk p)) ∧
          (first :: rest).filter (fun p => onDisk p) ≠ []) ∧
      concatenateVideoSegmentsRefList onDisk (first :: rest) =
        .ok ((first :: rest).filter (fun p => onDisk p)) := by
  intro onDisk first rest
  refine ⟨?_, ?_, ?_⟩
  · intro h
    simp only [concatenateSegmentsRefList]
    rw [if_pos (by simp [h])]
  · intro h
    have hfil : (first :: rest).filter (fun p => onDisk p) =
        first :: rest.filter (fun p => onDisk p) := by
      simp [List.filter_cons, h]
    refine ⟨?_, ?_⟩
    · simp only [concatenateSegmentsRefList]
      rw [if_neg (by simp [h]), if_neg (by simp [hfil])]
    · simp [hfil]
  · simp [concatenateVideoSegmentsRefList]

/-- Witness for C9: the first path exists, a later one does not; the
survivor list keeps order. -/
theorem concatSegments_missing_paths_witness :
    concatenateSegmentsRefList (fun p => p == "keep") ["keep", "gone"] =
      .ok ["keep"] := by
  have h := ((concatSegments_missing_paths (fun p => p == "keep") "keep"
    ["gone"]).2.1 (by decide)).1
  exact h.trans (by rfl)

/-- Counterexample for C9 as stated: when the *first* segment path is the
missing one, `ConcatenateSegments` aborts with
`failed to open first segment` instead of skipping it, although a later
path still exists. -/
theorem concatSegments_first_missing_aborts :
    concatenateSegmentsRefList (fun p => !(p == "a.mp3"))
        ["a.mp3", "b.mp3"] = .error "failed to open first segment" ∧
    (fun p => !(p == "a.mp3")) "b.mp3" = true :=
  ⟨rfl, rfl⟩

/-- C10: with zero detected non-silent segments, `RemoveAudioSilence`
(first copy) takes the branch that creates an empty output file and
returns `nil` (success) — not an error (its only error exit there is a
failure of the file creation itself). -/
theorem removeAudioSilence_empty_creates_and_succeeds :
    ∀ (segments : List AudioSegment), segments = [] →
      removeAudioSilenceStep segments true = .createdEmptyAndReturnedNil := by
  intro segs h
  subst h
  rfl

/-- Witness for C10: a file whose single silence interval covers the whole
duration yields zero segments and the empty-output success path. -/
theorem removeAudioSilence_empty_creates_and_succeeds_witness :
    removeAudioSilenceStep (detectNonSilentSegmentsV1 [(0, 10)] 10) true =
      .createdEmptyAndReturnedNil :=
  removeAudioSilence_empty_creates_and_succeeds _ (by decide)

end RatReducible

end Ffmpego
